import Mathlib

/-!
Verification of the OTLP log viewer's normalization pipeline and histogram
builder.

The development shallowly embeds the two core components:

* `normalize` models the pure flattening-and-sorting part of `fetchLogs`
  (`src/services/logService.ts`, lines 28–114): the nested OTLP hierarchy is
  flattened into `LogEntry` values carrying denormalized resource and scope
  attributes, then stably sorted by parsed `timeUnixNano`, descending.
* `histogramData` models `LogHistogram.histogramData`
  (`src/components/LogHistogram.tsx`): adaptive time bucketing of the flat
  entries.

Modelling conventions:

* JavaScript numbers are modelled as exact rationals (`ℚ`).  All concrete
  inputs considered here stay in ranges where IEEE doubles behave exactly
  like the rationals for the comparisons and floor/ceil operations involved.
* A JS `undefined`/`null` field is `Option.none`.
* A raw `timeUnixNano` (number or numeric string) is modelled by its numeric
  value; an absent one is `none`.  Calling `.toString()` on an absent value
  throws a `TypeError` in JS, so the entry builder returns `none` and the
  whole normalization aborts (`Option` models the exception).
* A flat entry's `timeUnixNano` is a decimal string in the code; only its
  truthiness and numeric parse are ever consumed, so it is modelled as
  `Option ℚ`: `none` is a falsy value (empty string / the number 0), and
  `some q` a truthy string whose numeric parse is `q` (note `"0"` is truthy
  and parses to `0`).
* JS string-keyed objects (`Record<string, ...>`) are association lists with
  insertion-order keys; assigning to an existing key overwrites the value in
  place, assigning a fresh key appends.
* `Math.floor`/`Math.min` on the non-finite values produced by a
  division by zero are modelled explicitly in `bucketIndex`: `0/0` is `NaN`
  (the entry is skipped by the `bucketIndex >= 0` guard), `x/0` with
  `x > 0` is `+∞` (clamped to the last bucket by `Math.min`), and `x/0`
  with `x < 0` is `-∞` (skipped by the guard).
* JS `Array.prototype.sort` with a consistent comparator produces the unique
  stable sorted permutation, modelled by insertion sort.
-/

namespace Otlp

attribute [local semireducible] Rat.sub Rat.add Rat.mul Rat.inv

/-- The 4-variant union `ExtractedAnyValue = string | number | boolean | null`
from `src/types/otlp.ts`; also used for `AttributeValue`. -/
inductive ExtractedAnyValue where
  | str (s : String)
  | num (q : ℚ)
  | bool (b : Bool)
  | null
deriving DecidableEq

/-- Model of `IAnyValue` from the OTLP transformer types: a oneof encoded as a bag of
optional fields.  The composite variants (`arrayValue`, `kvlistValue`,
`bytesValue`) are never inspected by the code, so their payload is `Unit`. -/
structure IAnyValue where
  stringValue : Option String := none
  boolValue : Option Bool := none
  intValue : Option ℚ := none
  doubleValue : Option ℚ := none
  arrayValue : Option Unit := none
  kvlistValue : Option Unit := none
  bytesValue : Option Unit := none
deriving DecidableEq

/-- Model of `extractAnyValue` from `src/types/otlp.ts`: first populated variant in the
order string, int, double, bool; otherwise `null`.  An absent wrapper is
`null`. -/
def extractAnyValue : Option IAnyValue → ExtractedAnyValue
  | none => .null
  | some v =>
    match v.stringValue with
    | some s => .str s
    | none =>
      match v.intValue with
      | some i => .num i
      | none =>
        match v.doubleValue with
        | some d => .num d
        | none =>
          match v.boolValue with
          | some b => .bool b
          | none => .null

/-- Model of `extractStringValue` from `src/types/otlp.ts`: only the string variant is
honored; anything else yields the empty string. -/
def extractStringValue : Option IAnyValue → String
  | none => ""
  | some v =>
    match v.stringValue with
    | some s => s
    | none => ""

/-- Model of `IKeyValue`: one attribute pair.  The key is optional to model a raw JSON
pair with a missing key (the code guards on `attr.key` truthiness). -/
structure IKeyValue where
  key : Option String := none
  value : Option IAnyValue := none
deriving DecidableEq

/-- Truthiness of an optional JS string: present and non-empty. -/
def strTruthy : Option String → Bool
  | none => false
  | some s => !(s == "")

/-- An attribute map: JS object modelled as an insertion-ordered association
list with unique keys. -/
abbrev AttrMap := List (String × ExtractedAnyValue)

/-- JS property assignment `m[k] = v`: overwrite in place if the key exists,
else append. -/
def objSet (m : AttrMap) (k : String) (v : ExtractedAnyValue) : AttrMap :=
  match m with
  | [] => [(k, v)]
  | (k2, v2) :: rest => if k2 = k then (k2, v) :: rest else (k2, v2) :: objSet rest k v

/-- JS property read `m[k]`. -/
def objGet (m : AttrMap) (k : String) : Option ExtractedAnyValue :=
  match m with
  | [] => none
  | (k2, v) :: rest => if k2 = k then some v else objGet rest k

/-- One step of the attribute-building loops of `fetchLogs`: a pair with a
falsy key (absent or empty string) is skipped, otherwise the extracted value
is assigned to the key. -/
def attrStep (m : AttrMap) (attr : IKeyValue) : AttrMap :=
  if strTruthy attr.key then objSet m (attr.key.getD "") (extractAnyValue attr.value) else m

/-- Building an attribute map from an optional attribute array: pairs with a
falsy key (absent or empty string) are skipped; values go through
`extractAnyValue`.  Mirrors the three identical loops in `fetchLogs`. -/
def buildAttrs (attrs : Option (List IKeyValue)) : AttrMap :=
  (attrs.getD []).foldl attrStep []

/-- Model of `IInstrumentationScope`. -/
structure IInstrumentationScope where
  name : Option String := none
  version : Option String := none
  attributes : Option (List IKeyValue) := none
deriving DecidableEq

/-- Model of `IResource`. -/
structure IResource where
  attributes : Option (List IKeyValue) := none
deriving DecidableEq

/-- Model of `ILogRecord`.  `timeUnixNano` is the numeric value of the transported
number-or-numeric-string, `none` when the field is absent.  `traceId` and
`spanId` are either a string or a byte array. -/
structure ILogRecord where
  timeUnixNano : Option ℚ := none
  severityNumber : Option ℚ := none
  severityText : Option String := none
  body : Option IAnyValue := none
  attributes : Option (List IKeyValue) := none
  droppedAttributesCount : Option ℚ := none
  traceId : Option (String ⊕ List ℕ) := none
  spanId : Option (String ⊕ List ℕ) := none
  flags : Option ℚ := none
deriving DecidableEq

/-- Model of `IScopeLogs`. -/
structure IScopeLogs where
  scope : Option IInstrumentationScope := none
  logRecords : Option (List ILogRecord) := none
deriving DecidableEq

/-- Model of `IResourceLogs`. -/
structure IResourceLogs where
  resource : Option IResource := none
  scopeLogs : Option (List IScopeLogs) := none
deriving DecidableEq

/-- Model of `IExportLogsServiceRequest`: the raw OTLP payload. -/
structure IExportLogsServiceRequest where
  resourceLogs : Option (List IResourceLogs) := none
deriving DecidableEq

/-- The flat `LogEntry` produced by `fetchLogs`.  `timeUnixNano` is the
decimal string, modelled by truthiness plus numeric parse (see the header). -/
structure LogEntry where
  timeUnixNano : Option ℚ := none
  severityNumber : Option ℚ := none
  severityText : Option String := none
  body : String := ""
  attributes : AttrMap := []
  droppedAttributesCount : Option ℚ := none
  traceId : Option String := none
  spanId : Option String := none
  flags : Option ℚ := none
  resourceAttributes : AttrMap := []
  scopeAttributes : AttrMap := []
deriving DecidableEq

/-- Lowercase hex digit for a nibble. -/
def hexDigitChar (n : ℕ) : Char :=
  if n < 10 then Char.ofNat (48 + n) else Char.ofNat (87 + n)

/-- Two-digit lowercase hex encoding of one byte. -/
def byteToHex (b : ℕ) : String :=
  String.mk [hexDigitChar (b / 16 % 16), hexDigitChar (b % 16)]

/-- Model of `Buffer.from(bytes).toString('hex')`. -/
def bytesToHex (bs : List ℕ) : String :=
  String.join (bs.map byteToHex)

/-- The trace/span id conversion in `fetchLogs`: strings pass through, byte
arrays are hex encoded, absent stays absent. -/
def convertId : Option (String ⊕ List ℕ) → Option String
  | none => none
  | some (Sum.inl s) => some s
  | some (Sum.inr bs) => some (bytesToHex bs)

/-- Resource attribute map of one `IResourceLogs`
(`resourceLog.resource?.attributes`). -/
def resAttrsOf (rl : IResourceLogs) : AttrMap :=
  buildAttrs (rl.resource.bind (fun r => r.attributes))

/-- Scope attribute map of one optional scope: the attribute array first, then
the synthetic `scope.name` / `scope.version` keys when the scope provides a
truthy name/version — added last, so they overwrite a real attribute of the
same name. -/
def scopeAttrsOf : Option IInstrumentationScope → AttrMap
  | none => []
  | some sc =>
    let base := buildAttrs sc.attributes
    let m1 := if strTruthy sc.name then objSet base "scope.name" (.str (sc.name.getD "")) else base
    if strTruthy sc.version then objSet m1 "scope.version" (.str (sc.version.getD "")) else m1

/-- Building one flat entry from a raw record.  `none` models the `TypeError`
thrown by `logRecord.timeUnixNano.toString()` when the field is absent.  The
produced decimal string is always truthy, hence `some t`. -/
def mkEntry (resAttrs scAttrs : AttrMap) (r : ILogRecord) : Option LogEntry :=
  match r.timeUnixNano with
  | none => none
  | some t =>
    some
      { timeUnixNano := some t
        severityNumber := r.severityNumber
        severityText := r.severityText
        body := extractStringValue r.body
        attributes := buildAttrs r.attributes
        droppedAttributesCount := r.droppedAttributesCount
        traceId := convertId r.traceId
        spanId := convertId r.spanId
        flags := r.flags
        resourceAttributes := resAttrs
        scopeAttributes := scAttrs }

/-- The flattening loops of `fetchLogs`, before sorting: one optional entry
per raw record, in source order. -/
def flattenEntries (raw : IExportLogsServiceRequest) : List (Option LogEntry) :=
  (raw.resourceLogs.getD []).flatMap (fun rl =>
    (rl.scopeLogs.getD []).flatMap (fun sl =>
      (sl.logRecords.getD []).map (mkEntry (resAttrsOf rl) (scopeAttrsOf sl.scope))))

/-- Sequencing: `some` of the list of values when every element is `some`,
`none` as soon as any record aborted the loop with an exception. -/
def sequenceOpt {α : Type} : List (Option α) → Option (List α)
  | [] => some []
  | none :: _ => none
  | some a :: rest => (sequenceOpt rest).map (fun l => a :: l)

/-- The sort key used by both sorts: `e.timeUnixNano ? Number(e.timeUnixNano) : 0`. -/
def sortKey (e : LogEntry) : ℚ :=
  match e.timeUnixNano with
  | none => 0
  | some q => q

/-- Stable descending insertion: place `a` before the first element whose key
is not greater.  Models the stable JS sort with comparator `timeB - timeA`. -/
def insertDesc (a : LogEntry) : List LogEntry → List LogEntry
  | [] => [a]
  | b :: bs => if sortKey b ≤ sortKey a then a :: b :: bs else b :: insertDesc a bs

/-- Stable sort by `sortKey`, descending. -/
def sortDesc : List LogEntry → List LogEntry
  | [] => []
  | x :: xs => insertDesc x (sortDesc xs)

/-- Stable ascending insertion, modelling the histogram's sort with
comparator `timeA - timeB`. -/
def insertAsc (a : LogEntry) : List LogEntry → List LogEntry
  | [] => [a]
  | b :: bs => if sortKey a ≤ sortKey b then a :: b :: bs else b :: insertAsc a bs

/-- Stable sort by `sortKey`, ascending. -/
def sortAsc : List LogEntry → List LogEntry
  | [] => []
  | x :: xs => insertAsc x (sortAsc xs)

/-- The normalizer: the pure core of `fetchLogs` — flatten, then sort descending
by parsed time.  `none` models the function throwing. -/
def normalize (raw : IExportLogsServiceRequest) : Option (List LogEntry) :=
  (sequenceOpt (flattenEntries raw)).map sortDesc

/-- Total number of `LogRecord` objects summed over all `ResourceLogs` and
`ScopeLogs` of the payload. -/
def countRecords (raw : IExportLogsServiceRequest) : ℕ :=
  ((raw.resourceLogs.getD []).map (fun rl =>
    ((rl.scopeLogs.getD []).map (fun sl => (sl.logRecords.getD []).length)).sum)).sum

/-- One histogram bucket: start time (nanoseconds, before the time-of-day
label formatting, which the claims do not touch) and count. -/
structure HistogramBucket where
  time : ℚ
  count : ℕ
deriving DecidableEq

/-- The `minTime` of `histogramData`: parsed time of the first entry of the
ascending sort, `0` for an empty list. -/
def minTimeOf (logs : List LogEntry) : ℚ :=
  match sortAsc logs with
  | [] => 0
  | first :: _ => sortKey first

/-- The `maxTime` of `histogramData`: parsed time of the last entry of the
ascending sort, `0` for an empty list. -/
def maxTimeOf (logs : List LogEntry) : ℚ :=
  match sortAsc logs with
  | [] => 0
  | first :: rest => sortKey (rest.getLastD first)

/-- The bucket index `Math.min(Math.floor((time - minTime) / bucketSize), n - 1)`,
with the JS non-finite cases made explicit: when `bucketSize` is `0`, `0/0`
is `NaN` (so the index comparison fails and the entry is skipped, modelled by
`none`), a positive numerator gives `+∞` (clamped to `n - 1` by `Math.min`),
and a negative numerator gives `-∞` (below `0`, skipped, modelled by `none`). -/
def bucketIndex (t minTime bs : ℚ) (n : ℕ) : Option ℤ :=
  if bs = 0 then
    if t - minTime = 0 then none
    else if 0 < t - minTime then some ((n : ℤ) - 1)
    else none
  else some (min ⌊(t - minTime) / bs⌋ ((n : ℤ) - 1))

/-- Increment the cell at an index, leaving the list unchanged when the index
is out of range. -/
def incAt : List ℕ → ℕ → List ℕ
  | [], _ => []
  | c :: cs, 0 => (c + 1) :: cs
  | c :: cs, n + 1 => c :: incAt cs n

/-- One iteration of the counting loop of `histogramData`: an entry with a
falsy time is skipped; otherwise the bucket at the computed index is
incremented if the index passes the `0 <= i < n` guard. -/
def bucketStep (minTime bs : ℚ) (n : ℕ) (counts : List ℕ) (e : LogEntry) : List ℕ :=
  match e.timeUnixNano with
  | none => counts
  | some t =>
    match bucketIndex t minTime bs n with
    | none => counts
    | some i => if 0 ≤ i ∧ i < (n : ℤ) then incAt counts i.toNat else counts

/-- The counting loop of `histogramData` over the original entry order. -/
def countBuckets (logs : List LogEntry) (minTime bs : ℚ) (n : ℕ) : List ℕ :=
  logs.foldl (bucketStep minTime bs n) (List.replicate n 0)

/-- The bucket count `Math.min(Math.max(10, Math.ceil(timeRangeSeconds / 5)), 20)`. -/
def numBucketsOf (logs : List LogEntry) : ℕ :=
  (min (max 10 ⌈((maxTimeOf logs - minTimeOf logs) / 1000000000) / 5⌉) 20).toNat

/-- The bucket width `timeRangeNanos / numBuckets` in nanoseconds. -/
def bucketSizeOf (logs : List LogEntry) : ℚ :=
  (maxTimeOf logs - minTimeOf logs) / (numBucketsOf logs : ℚ)

/-- Model of `histogramData` from `LogHistogram.tsx` (`buildHistogram` in the spec):
empty input or a zero min/max time anchor yields the empty list; otherwise
`clamp(ceil(rangeSeconds / 5), 10, 20)` buckets of width `range / n`
starting at `minTime`, counts from `countBuckets`. -/
def histogramData (logs : List LogEntry) : List HistogramBucket :=
  if logs.isEmpty then []
  else
    if minTimeOf logs = 0 ∨ maxTimeOf logs = 0 then []
    else
      let n := numBucketsOf logs
      let bs := bucketSizeOf logs
      let counts := countBuckets logs (minTimeOf logs) bs n
      (List.range n).map (fun (i : ℕ) => ⟨minTimeOf logs + (i : ℚ) * bs, counts.getD i 0⟩)

/-- Sum of all bucket counts of a histogram. -/
def sumCounts (h : List HistogramBucket) : ℕ :=
  (h.map HistogramBucket.count).sum

/-- Number of entries with a defined, non-zero `timeUnixNano`. -/
def countDefNonzero (logs : List LogEntry) : ℕ :=
  logs.countP (fun e =>
    match e.timeUnixNano with
    | none => false
    | some t => !(t == 0))

/-! ### Attribute-map lemmas -/

theorem objGet_objSet_self (m : AttrMap) (k : String) (v : ExtractedAnyValue) :
    objGet (objSet m k v) k = some v := by
  induction m with
  | nil => simp [objSet, objGet]
  | cons p rest ih =>
    obtain ⟨k2, v2⟩ := p
    by_cases h : k2 = k
    · simp [objSet, objGet, h]
    · simp [objSet, objGet, h, ih]

theorem objGet_objSet_ne (m : AttrMap) (k k2 : String) (v : ExtractedAnyValue)
    (h : k2 ≠ k) : objGet (objSet m k2 v) k = objGet m k := by
  induction m with
  | nil => simp [objSet, objGet, h]
  | cons p rest ih =>
    obtain ⟨k3, v3⟩ := p
    by_cases h3 : k3 = k2
    · subst h3
      simp [objSet, objGet, h]
    · by_cases hk : k3 = k
      · simp [objSet, objGet, h3, hk, Ne.symm h]
      · simp [objSet, objGet, h3, hk, ih]

theorem objSet_mem (m : AttrMap) (k : String) (v : ExtractedAnyValue)
    (p : String × ExtractedAnyValue) (hp : p ∈ objSet m k v) : p.1 = k ∨ p ∈ m := by
  induction m with
  | nil =>
    simp only [objSet, List.mem_singleton] at hp
    subst hp
    exact Or.inl rfl
  | cons q rest ih =>
    obtain ⟨k2, v2⟩ := q
    by_cases h : k2 = k
    · simp only [objSet, if_pos h, List.mem_cons] at hp
      rcases hp with hp | hp
      · subst hp
        exact Or.inl h
      · exact Or.inr (List.mem_cons_of_mem _ hp)
    · simp only [objSet, if_neg h, List.mem_cons] at hp
      rcases hp with hp | hp
      · subst hp
        exact Or.inr (List.mem_cons_self _ _)
      · rcases ih hp with h1 | h2
        · exact Or.inl h1
        · exact Or.inr (List.mem_cons_of_mem _ h2)

theorem strTruthy_getD_ne (k : Option String) (h : strTruthy k = true) : k.getD "" ≠ "" := by
  cases k with
  | none => simp [strTruthy] at h
  | some s =>
    simp only [strTruthy, Bool.not_eq_eq_eq_not, Bool.not_true, beq_eq_false_iff_ne] at h
    simpa using h

theorem attrFold_keys (l : List IKeyValue) :
    ∀ (m : AttrMap), (∀ p ∈ m, p.1 ≠ "") → ∀ p ∈ l.foldl attrStep m, p.1 ≠ "" := by
  induction l with
  | nil =>
    intro m hm p hp
    exact hm p hp
  | cons a rest ih =>
    intro m hm p hp
    simp only [List.foldl_cons] at hp
    refine ih (attrStep m a) ?_ p hp
    intro q hq
    unfold attrStep at hq
    split at hq
    next ht =>
      rcases objSet_mem _ _ _ q hq with h1 | h2
      · rw [h1]
        exact strTruthy_getD_ne _ ht
      · exact hm q h2
    next => exact hm q hq

theorem buildAttrs_keys (attrs : Option (List IKeyValue)) :
    ∀ p ∈ buildAttrs attrs, p.1 ≠ "" := by
  intro p hp
  exact attrFold_keys _ [] (by simp) p hp

theorem attrFold_filter (l : List IKeyValue) :
    ∀ m : AttrMap, l.foldl attrStep m = (l.filter (fun a => strTruthy a.key)).foldl attrStep m := by
  induction l with
  | nil => intro m; rfl
  | cons a rest ih =>
    intro m
    by_cases h : strTruthy a.key
    · simp [List.filter_cons, h, ih (attrStep m a)]
    · have ha : attrStep m a = m := by simp [attrStep, h]
      simp [List.filter_cons, h, ha, ih m]

theorem buildAttrs_filter (attrs : List IKeyValue) :
    buildAttrs (some attrs) = buildAttrs (some (attrs.filter (fun a => strTruthy a.key))) := by
  simpa [buildAttrs] using attrFold_filter attrs []

theorem scopeAttrsOf_keys (sc : Option IInstrumentationScope) :
    ∀ p ∈ scopeAttrsOf sc, p.1 ≠ "" := by
  intro p hp
  cases sc with
  | none => simp [scopeAttrsOf] at hp
  | some s =>
    simp only [scopeAttrsOf] at hp
    split at hp
    next =>
      rcases objSet_mem _ _ _ p hp with h1 | h1
      · simp [h1]
      · split at h1
        next =>
          rcases objSet_mem _ _ _ p h1 with h2 | h2
          · simp [h2]
          · exact buildAttrs_keys _ p h2
        next => exact buildAttrs_keys _ p h1
    next =>
      split at hp
      next =>
        rcases objSet_mem _ _ _ p hp with h2 | h2
        · simp [h2]
        · exact buildAttrs_keys _ p h2
      next => exact buildAttrs_keys _ p hp

/-! ### Sort lemmas -/

theorem insertDesc_perm (a : LogEntry) (l : List LogEntry) :
    (insertDesc a l).Perm (a :: l) := by
  induction l with
  | nil => simp [insertDesc]
  | cons b bs ih =>
    simp only [insertDesc]
    split
    · exact List.Perm.refl _
    · exact (ih.cons b).trans (List.Perm.swap a b bs)

theorem sortDesc_perm (l : List LogEntry) : (sortDesc l).Perm l := by
  induction l with
  | nil => simp [sortDesc]
  | cons x xs ih => exact (insertDesc_perm x (sortDesc xs)).trans (ih.cons x)

theorem mem_insertDesc (a x : LogEntry) (l : List LogEntry) :
    x ∈ insertDesc a l ↔ x = a ∨ x ∈ l := by
  rw [(insertDesc_perm a l).mem_iff]
  simp

theorem insertDesc_pairwise (a : LogEntry) (l : List LogEntry)
    (h : l.Pairwise (fun x y => sortKey y ≤ sortKey x)) :
    (insertDesc a l).Pairwise (fun x y => sortKey y ≤ sortKey x) := by
  induction l with
  | nil => simp [insertDesc]
  | cons b bs ih =>
    rcases List.pairwise_cons.mp h with ⟨hb, hbs⟩
    simp only [insertDesc]
    split
    next hle =>
      refine List.pairwise_cons.mpr ⟨?_, h⟩
      intro x hx
      rcases List.mem_cons.mp hx with hx | hx
      · exact hx ▸ hle
      · exact le_trans (hb x hx) hle
    next hgt =>
      refine List.pairwise_cons.mpr ⟨?_, ih hbs⟩
      intro x hx
      rcases (mem_insertDesc a x bs).mp hx with hx | hx
      · exact hx ▸ le_of_lt (lt_of_not_le hgt)
      · exact hb x hx

theorem sortDesc_pairwise (l : List LogEntry) :
    (sortDesc l).Pairwise (fun x y => sortKey y ≤ sortKey x) := by
  induction l with
  | nil => simp [sortDesc]
  | cons x xs ih => exact insertDesc_pairwise x (sortDesc xs) ih

theorem filter_insertDesc (a : LogEntry) (l : List LogEntry) (c : ℚ) :
    (insertDesc a l).filter (fun e => sortKey e == c) =
      if sortKey a == c then a :: l.filter (fun e => sortKey e == c)
      else l.filter (fun e => sortKey e == c) := by
  induction l with
  | nil =>
    by_cases hc : (sortKey a == c) = true
    · simp [insertDesc, List.filter, hc]
    · have hc2 : (sortKey a == c) = false := by simpa using hc
      simp [insertDesc, List.filter, hc2]
  | cons b bs ih =>
    simp only [insertDesc]
    split
    next =>
      by_cases hc : sortKey a == c
      · simp [List.filter_cons, hc]
      · simp [List.filter_cons, hc]
    next hgt =>
      by_cases hc : (sortKey a == c) = true
      · have hbc : (sortKey b == c) = false := by
          have h1 : sortKey a = c := by simpa using hc
          have h2 : sortKey a < sortKey b := lt_of_not_le hgt
          have : sortKey b ≠ c := by
            intro hbc2
            rw [h1] at h2
            rw [hbc2] at h2
            exact lt_irrefl c h2
          simpa using this
        simp [List.filter_cons, hbc, hc, ih]
      · have hc2 : (sortKey a == c) = false := by simpa using hc
        by_cases hbc : (sortKey b == c) = true
        · simp [List.filter_cons, hbc, hc2, ih]
        · have hbc2 : (sortKey b == c) = false := by simpa using hbc
          simp [List.filter_cons, hbc2, hc2, ih]

theorem sortDesc_filter (l : List LogEntry) (c : ℚ) :
    (sortDesc l).filter (fun e => sortKey e == c) = l.filter (fun e => sortKey e == c) := by
  induction l with
  | nil => rfl
  | cons x xs ih =>
    simp only [sortDesc, filter_insertDesc, List.filter_cons, ih]

theorem insertAsc_perm (a : LogEntry) (l : List LogEntry) :
    (insertAsc a l).Perm (a :: l) := by
  induction l with
  | nil => simp [insertAsc]
  | cons b bs ih =>
    simp only [insertAsc]
    split
    · exact List.Perm.refl _
    · exact (ih.cons b).trans (List.Perm.swap a b bs)

theorem sortAsc_perm (l : List LogEntry) : (sortAsc l).Perm l := by
  induction l with
  | nil => simp [sortAsc]
  | cons x xs ih => exact (insertAsc_perm x (sortAsc xs)).trans (ih.cons x)

theorem mem_insertAsc (a x : LogEntry) (l : List LogEntry) :
    x ∈ insertAsc a l ↔ x = a ∨ x ∈ l := by
  rw [(insertAsc_perm a l).mem_iff]
  simp

theorem insertAsc_pairwise (a : LogEntry) (l : List LogEntry)
    (h : l.Pairwise (fun x y => sortKey x ≤ sortKey y)) :
    (insertAsc a l).Pairwise (fun x y => sortKey x ≤ sortKey y) := by
  induction l with
  | nil => simp [insertAsc]
  | cons b bs ih =>
    rcases List.pairwise_cons.mp h with ⟨hb, hbs⟩
    simp only [insertAsc]
    split
    next hle =>
      refine List.pairwise_cons.mpr ⟨?_, h⟩
      intro x hx
      rcases List.mem_cons.mp hx with hx | hx
      · exact hx ▸ hle
      · exact le_trans hle (hb x hx)
    next hgt =>
      refine List.pairwise_cons.mpr ⟨?_, ih hbs⟩
      intro x hx
      rcases (mem_insertAsc a x bs).mp hx with hx | hx
      · exact hx ▸ le_of_lt (lt_of_not_le hgt)
      · exact hb x hx

theorem sortAsc_pairwise (l : List LogEntry) :
    (sortAsc l).Pairwise (fun x y => sortKey x ≤ sortKey y) := by
  induction l with
  | nil => simp [sortAsc]
  | cons x xs ih => exact insertAsc_pairwise x (sortAsc xs) ih

/-! ### Head and last of the ascending sort -/

theorem getLastD_mem (xs : List LogEntry) (x : LogEntry) : xs.getLastD x ∈ x :: xs := by
  induction xs generalizing x with
  | nil => simp
  | cons y ys ih =>
    rw [List.getLastD_cons]
    exact List.mem_cons_of_mem x (ih y)

theorem pairwise_le_getLastD (x : LogEntry) (xs : List LogEntry)
    (h : (x :: xs).Pairwise (fun a b => sortKey a ≤ sortKey b)) :
    ∀ e ∈ x :: xs, sortKey e ≤ sortKey (xs.getLastD x) := by
  induction xs generalizing x with
  | nil =>
    intro e he
    simp only [List.mem_singleton] at he
    simp [he]
  | cons y ys ih =>
    intro e he
    rw [List.getLastD_cons]
    rcases List.pairwise_cons.mp h with ⟨hx, h2⟩
    rcases List.mem_cons.mp he with he | he
    · exact he ▸ hx _ (getLastD_mem ys y)
    · exact ih y h2 e he

theorem sortAsc_ne_nil (logs : List LogEntry) (h : logs ≠ []) : sortAsc logs ≠ [] := by
  intro hh
  apply h
  have := (sortAsc_perm logs).length_eq
  rw [hh] at this
  exact List.eq_nil_of_length_eq_zero this.symm

theorem minTimeOf_le (logs : List LogEntry) (e : LogEntry) (he : e ∈ logs) :
    minTimeOf logs ≤ sortKey e := by
  have hne : sortAsc logs ≠ [] := sortAsc_ne_nil logs (by rintro rfl; simp at he)
  unfold minTimeOf
  cases hs : sortAsc logs with
  | nil => exact absurd hs hne
  | cons first rest =>
    have hmem : e ∈ first :: rest := by
      rw [← hs]
      exact (sortAsc_perm logs).mem_iff.mpr he
    have hp : (first :: rest).Pairwise (fun a b => sortKey a ≤ sortKey b) := by
      rw [← hs]
      exact sortAsc_pairwise logs
    rcases List.mem_cons.mp hmem with hm | hm
    · simp [hm]
    · exact (List.pairwise_cons.mp hp).1 e hm

theorem le_maxTimeOf (logs : List LogEntry) (e : LogEntry) (he : e ∈ logs) :
    sortKey e ≤ maxTimeOf logs := by
  have hne : sortAsc logs ≠ [] := sortAsc_ne_nil logs (by rintro rfl; simp at he)
  unfold maxTimeOf
  cases hs : sortAsc logs with
  | nil => exact absurd hs hne
  | cons first rest =>
    have hmem : e ∈ first :: rest := by
      rw [← hs]
      exact (sortAsc_perm logs).mem_iff.mpr he
    have hp : (first :: rest).Pairwise (fun a b => sortKey a ≤ sortKey b) := by
      rw [← hs]
      exact sortAsc_pairwise logs
    exact pairwise_le_getLastD first rest hp e hmem

theorem minTimeOf_mem (logs : List LogEntry) (h : logs ≠ []) :
    ∃ e ∈ logs, minTimeOf logs = sortKey e := by
  have hne : sortAsc logs ≠ [] := sortAsc_ne_nil logs h
  unfold minTimeOf
  cases hs : sortAsc logs with
  | nil => exact absurd hs hne
  | cons first rest =>
    refine ⟨first, ?_, rfl⟩
    have : first ∈ sortAsc logs := by
      rw [hs]
      exact List.mem_cons_self _ _
    exact (sortAsc_perm logs).mem_iff.mp this

theorem maxTimeOf_mem (logs : List LogEntry) (h : logs ≠ []) :
    ∃ e ∈ logs, maxTimeOf logs = sortKey e := by
  have hne : sortAsc logs ≠ [] := sortAsc_ne_nil logs h
  unfold maxTimeOf
  cases hs : sortAsc logs with
  | nil => exact absurd hs hne
  | cons first rest =>
    refine ⟨rest.getLastD first, ?_, rfl⟩
    have : rest.getLastD first ∈ sortAsc logs := by
      rw [hs]
      exact getLastD_mem rest first
    exact (sortAsc_perm logs).mem_iff.mp this

theorem minTimeOf_le_maxTimeOf (logs : List LogEntry) (h : logs ≠ []) :
    minTimeOf logs ≤ maxTimeOf logs := by
  obtain ⟨e, he, heq⟩ := maxTimeOf_mem logs h
  rw [heq]
  exact minTimeOf_le logs e he

/-! ### Sequencing lemmas -/

theorem sequenceOpt_length {α : Type} (l : List (Option α)) (xs : List α)
    (h : sequenceOpt l = some xs) : xs.length = l.length := by
  induction l generalizing xs with
  | nil =>
    simp only [sequenceOpt, Option.some_inj] at h
    subst h
    rfl
  | cons o rest ih =>
    cases o with
    | none => simp [sequenceOpt] at h
    | some a =>
      simp only [sequenceOpt, Option.map_eq_some'] at h
      obtain ⟨ys, hy, hxs⟩ := h
      rw [← hxs]
      simp [ih ys hy]

theorem sequenceOpt_mem {α : Type} (l : List (Option α)) (xs : List α)
    (h : sequenceOpt l = some xs) : ∀ x ∈ xs, some x ∈ l := by
  induction l generalizing xs with
  | nil =>
    simp only [sequenceOpt, Option.some_inj] at h
    rw [← h]
    simp
  | cons o rest ih =>
    cases o with
    | none => simp [sequenceOpt] at h
    | some a =>
      simp only [sequenceOpt, Option.map_eq_some'] at h
      obtain ⟨ys, hy, hxs⟩ := h
      intro x hx
      rw [← hxs] at hx
      rcases List.mem_cons.mp hx with hx | hx
      · exact hx ▸ List.mem_cons_self _ _
      · exact List.mem_cons_of_mem _ (ih ys hy x hx)

theorem sequenceOpt_isSome {α : Type} (l : List (Option α))
    (h : ∀ o ∈ l, o.isSome = true) : (sequenceOpt l).isSome = true := by
  induction l with
  | nil => rfl
  | cons o rest ih =>
    cases o with
    | none => simpa using h none (List.mem_cons_self _ _)
    | some a =>
      have h2 := ih (fun o ho => h o (List.mem_cons_of_mem _ ho))
      cases hs : sequenceOpt rest with
      | none =>
        rw [hs] at h2
        simp at h2
      | some ys => simp [sequenceOpt, hs]

/-! ### Flattening lemmas -/

theorem flattenEntries_length (raw : IExportLogsServiceRequest) :
    (flattenEntries raw).length = countRecords raw := by
  simp only [flattenEntries, countRecords, List.length_flatMap]
  congr 1
  apply List.map_congr_left
  intro rl _
  simp only [Function.comp_apply, List.length_flatMap]
  congr 1
  apply List.map_congr_left
  intro sl _
  simp

theorem mem_flattenEntries (raw : IExportLogsServiceRequest) (o : Option LogEntry) :
    o ∈ flattenEntries raw ↔
      ∃ rl ∈ raw.resourceLogs.getD [], ∃ sl ∈ rl.scopeLogs.getD [],
        ∃ r ∈ sl.logRecords.getD [],
          mkEntry (resAttrsOf rl) (scopeAttrsOf sl.scope) r = o := by
  simp only [flattenEntries, List.mem_flatMap, List.mem_map]

/-! ### Counting lemmas -/

theorem incAt_length (l : List ℕ) (i : ℕ) : (incAt l i).length = l.length := by
  induction l generalizing i with
  | nil => rfl
  | cons c cs ih =>
    cases i with
    | zero => rfl
    | succ n => simp [incAt, ih]

theorem incAt_sum (l : List ℕ) (i : ℕ) (h : i < l.length) :
    (incAt l i).sum = l.sum + 1 := by
  induction l generalizing i with
  | nil => simp at h
  | cons c cs ih =>
    cases i with
    | zero =>
      simp only [incAt, List.sum_cons]
      omega
    | succ n =>
      simp only [incAt, List.sum_cons, ih n (by simpa using h)]
      omega

theorem bucketStep_length (minT bs : ℚ) (n : ℕ) (counts : List ℕ) (e : LogEntry) :
    (bucketStep minT bs n counts e).length = counts.length := by
  cases he : e.timeUnixNano with
  | none => simp [bucketStep, he]
  | some t =>
    cases hb : bucketIndex t minT bs n with
    | none => simp [bucketStep, he, hb]
    | some i =>
      by_cases hg : 0 ≤ i ∧ i < (n : ℤ)
      · simp [bucketStep, he, hb, hg, incAt_length]
      · simp [bucketStep, he, hb, hg]

theorem foldl_bucketStep_length (logs : List LogEntry) (minT bs : ℚ) (n : ℕ) :
    ∀ counts : List ℕ, (logs.foldl (bucketStep minT bs n) counts).length = counts.length := by
  induction logs with
  | nil => intro counts; rfl
  | cons e rest ih =>
    intro counts
    rw [List.foldl_cons, ih, bucketStep_length]

theorem countBuckets_length (logs : List LogEntry) (minT bs : ℚ) (n : ℕ) :
    (countBuckets logs minT bs n).length = n := by
  rw [countBuckets, foldl_bucketStep_length, List.length_replicate]

theorem foldl_bucketStep_sum (minT bs : ℚ) (n : ℕ) (logs : List LogEntry)
    (hval : ∀ e ∈ logs, ∀ t, e.timeUnixNano = some t →
      ∃ i : ℤ, bucketIndex t minT bs n = some i ∧ 0 ≤ i ∧ i < (n : ℤ)) :
    ∀ counts : List ℕ, counts.length = n →
      (logs.foldl (bucketStep minT bs n) counts).sum
        = counts.sum + logs.countP (fun e => e.timeUnixNano.isSome) := by
  induction logs with
  | nil =>
    intro counts hlen
    simp
  | cons e rest ih =>
    intro counts hlen
    have hrest : ∀ x ∈ rest, ∀ t, x.timeUnixNano = some t →
        ∃ i : ℤ, bucketIndex t minT bs n = some i ∧ 0 ≤ i ∧ i < (n : ℤ) :=
      fun x hx => hval x (List.mem_cons_of_mem _ hx)
    rw [List.foldl_cons]
    cases he : e.timeUnixNano with
    | none =>
      have hstep : bucketStep minT bs n counts e = counts := by
        simp [bucketStep, he]
      rw [hstep, ih hrest counts hlen]
      simp [List.countP_cons, he]
    | some t =>
      obtain ⟨i, hb, hi0, hin⟩ := hval e (List.mem_cons_self _ _) t he
      have hstep : bucketStep minT bs n counts e = incAt counts i.toNat := by
        simp [bucketStep, he, hb, hi0, hin]
      rw [hstep, ih hrest _ (by rw [incAt_length, hlen]),
        incAt_sum counts i.toNat (by rw [hlen]; omega)]
      simp only [List.countP_cons, he, Option.isSome_some, if_pos]
      omega

theorem countBuckets_sum (minT bs : ℚ) (n : ℕ) (logs : List LogEntry)
    (hval : ∀ e ∈ logs, ∀ t, e.timeUnixNano = some t →
      ∃ i : ℤ, bucketIndex t minT bs n = some i ∧ 0 ≤ i ∧ i < (n : ℤ)) :
    (countBuckets logs minT bs n).sum = logs.countP (fun e => e.timeUnixNano.isSome) := by
  rw [countBuckets, foldl_bucketStep_sum minT bs n logs hval _ (List.length_replicate _ _)]
  simp

theorem foldl_bucketStep_skip (minT bs : ℚ) (n : ℕ) (logs : List LogEntry)
    (h : ∀ e ∈ logs, ∀ t, e.timeUnixNano = some t → bucketIndex t minT bs n = none) :
    ∀ counts : List ℕ, logs.foldl (bucketStep minT bs n) counts = counts := by
  induction logs with
  | nil => intro counts; rfl
  | cons e rest ih =>
    intro counts
    have hrest : ∀ x ∈ rest, ∀ t, x.timeUnixNano = some t → bucketIndex t minT bs n = none :=
      fun x hx => h x (List.mem_cons_of_mem _ hx)
    rw [List.foldl_cons]
    cases he : e.timeUnixNano with
    | none =>
      have hstep : bucketStep minT bs n counts e = counts := by
        simp [bucketStep, he]
      rw [hstep, ih hrest]
    | some t =>
      have hstep : bucketStep minT bs n counts e = counts := by
        simp [bucketStep, he, h e (List.mem_cons_self _ _) t he]
      rw [hstep, ih hrest]

theorem getD_range_map (l : List ℕ) :
    (List.range l.length).map (fun i => l.getD i 0) = l := by
  induction l with
  | nil => rfl
  | cons x xs ih =>
    rw [List.length_cons, List.range_succ_eq_map, List.map_cons, List.map_map]
    have h2 : (List.range xs.length).map ((fun i => (x :: xs).getD i 0) ∘ Nat.succ)
        = (List.range xs.length).map (fun i => xs.getD i 0) :=
      List.map_congr_left (fun i _ => by simp)
    rw [h2, ih]
    simp

/-! ### Inversion lemmas for the normalizer -/

theorem mkEntry_inv (ra sa : AttrMap) (r : ILogRecord) (e : LogEntry)
    (h : mkEntry ra sa r = some e) :
    ∃ t, r.timeUnixNano = some t ∧ e.timeUnixNano = some t ∧
      e.resourceAttributes = ra ∧ e.scopeAttributes = sa ∧
      e.attributes = buildAttrs r.attributes := by
  cases ht : r.timeUnixNano with
  | none => simp [mkEntry, ht] at h
  | some t =>
    simp only [mkEntry, ht, Option.some_inj] at h
    subst h
    exact ⟨t, rfl, rfl, rfl, rfl, rfl⟩

theorem normalize_inv (raw : IExportLogsServiceRequest) (es : List LogEntry)
    (h : normalize raw = some es) :
    ∃ fl, sequenceOpt (flattenEntries raw) = some fl ∧ es = sortDesc fl := by
  simp only [normalize, Option.map_eq_some'] at h
  obtain ⟨fl, h1, h2⟩ := h
  exact ⟨fl, h1, h2.symm⟩

theorem normalize_mem (raw : IExportLogsServiceRequest) (es : List LogEntry) (e : LogEntry)
    (h : normalize raw = some es) (he : e ∈ es) :
    ∃ rl ∈ raw.resourceLogs.getD [], ∃ sl ∈ rl.scopeLogs.getD [],
      ∃ r ∈ sl.logRecords.getD [],
        mkEntry (resAttrsOf rl) (scopeAttrsOf sl.scope) r = some e := by
  obtain ⟨fl, h1, h2⟩ := normalize_inv raw es h
  have he2 : e ∈ fl := (sortDesc_perm fl).mem_iff.mp (h2 ▸ he)
  have h3 : some e ∈ flattenEntries raw := sequenceOpt_mem _ fl h1 e he2
  exact (mem_flattenEntries raw (some e)).mp h3

theorem normalize_length (raw : IExportLogsServiceRequest) (es : List LogEntry)
    (h : normalize raw = some es) : es.length = countRecords raw := by
  obtain ⟨fl, h1, h2⟩ := normalize_inv raw es h
  rw [h2, (sortDesc_perm fl).length_eq, sequenceOpt_length _ fl h1, flattenEntries_length]

theorem resAttrsOf_none (rl : IResourceLogs) (h : rl.resource = none) :
    resAttrsOf rl = [] := by
  simp [resAttrsOf, h, buildAttrs]

theorem resAttrsOf_attrs_none (rl : IResourceLogs)
    (h : rl.resource.bind (fun r => r.attributes) = none) : resAttrsOf rl = [] := by
  simp [resAttrsOf, h, buildAttrs]

theorem scopeAttrsOf_empty (sc : IInstrumentationScope) (ha : sc.attributes = none)
    (hn : strTruthy sc.name = false) (hv : strTruthy sc.version = false) :
    scopeAttrsOf (some sc) = [] := by
  simp [scopeAttrsOf, ha, hn, hv, buildAttrs]

/-! ### Histogram unfolding -/

theorem histogramData_eq (logs : List LogEntry) (hnil : logs ≠ [])
    (hbr : ¬(minTimeOf logs = 0 ∨ maxTimeOf logs = 0)) :
    histogramData logs = (List.range (numBucketsOf logs)).map
      (fun (i : ℕ) => ⟨minTimeOf logs + (i : ℚ) * bucketSizeOf logs,
        (countBuckets logs (minTimeOf logs) (bucketSizeOf logs) (numBucketsOf logs)).getD i 0⟩) := by
  have hemp : ¬(logs.isEmpty = true) := by simp [hnil]
  rw [histogramData, if_neg hemp, if_neg hbr]

theorem numBucketsOf_bounds (logs : List LogEntry) :
    10 ≤ numBucketsOf logs ∧ numBucketsOf logs ≤ 20 := by
  unfold numBucketsOf
  have hlow : (10 : ℤ) ≤ min (max 10 ⌈((maxTimeOf logs - minTimeOf logs) / 1000000000) / 5⌉) 20 :=
    le_min (le_max_left _ _) (by norm_num)
  have hhigh : min (max 10 ⌈((maxTimeOf logs - minTimeOf logs) / 1000000000) / 5⌉) 20 ≤ 20 :=
    min_le_right _ _
  omega

theorem getD_replicate_zero (n i : ℕ) : (List.replicate n (0 : ℕ)).getD i 0 = 0 := by
  induction n generalizing i with
  | zero => simp
  | succ m ih =>
    cases i with
    | zero => simp
    | succ j => simp [ih j]

/-! ### Concrete payloads used by the witnesses -/

/-- A small payload: one ResourceLogs without resource, one ScopeLogs without
scope, two records with times 1 and 2 (in ascending source order). -/
def w1raw : IExportLogsServiceRequest :=
  { resourceLogs := some [
      { resource := none
        scopeLogs := some [
          { scope := none
            logRecords := some [
              { timeUnixNano := some 1 },
              { timeUnixNano := some 2 } ] } ] } ] }

/-- A payload whose single record has no `timeUnixNano`. -/
def c2BadRaw : IExportLogsServiceRequest :=
  { resourceLogs := some [
      { scopeLogs := some [ { logRecords := some [ {} ] } ] } ] }

/-- A scope providing a name and a version, whose attribute array also
contains a real attribute named `scope.name`. -/
def w9sc : IInstrumentationScope :=
  { name := some "svc"
    version := some "1.0"
    attributes := some [
      { key := some "scope.name", value := some { stringValue := some "shadowed" } } ] }

/-- A payload whose resource attributes contain a pair with empty key, a pair
with absent key, and one well-keyed pair. -/
def w10raw : IExportLogsServiceRequest :=
  { resourceLogs := some [
      { resource := some { attributes := some [
          { key := some "", value := some { stringValue := some "dropped" } },
          { key := none },
          { key := some "ok", value := some { intValue := some 7 } } ] }
        scopeLogs := some [ { logRecords := some [ { timeUnixNano := some 3 } ] } ] } ] }

/-- The single entry normalized from `w10raw`. -/
def c10entry : LogEntry := ((normalize w10raw).getD []).headD {}

/-- Every record of the payload carries a `timeUnixNano`. -/
def timesPresent (raw : IExportLogsServiceRequest) : Prop :=
  ∀ rl ∈ raw.resourceLogs.getD [], ∀ sl ∈ rl.scopeLogs.getD [],
    ∀ r ∈ sl.logRecords.getD [], r.timeUnixNano.isSome = true

/-! ### Claim theorems: normalizer -/

/-- Claim C1: whenever `normalize` returns a sequence, its length equals the
total number of LogRecord objects summed over all ResourceLogs and ScopeLogs
(no record dropped or duplicated), every produced entry carries the attribute
maps of its source branch, and an absent optional container (resource, scope,
or any attributes array) yields the corresponding empty attribute map. -/
theorem normalize_count_preservation (raw : IExportLogsServiceRequest) (es : List LogEntry)
    (h : normalize raw = some es) :
    es.length = countRecords raw ∧
    ∀ e ∈ es, ∃ rl ∈ raw.resourceLogs.getD [], ∃ sl ∈ rl.scopeLogs.getD [],
      ∃ r ∈ sl.logRecords.getD [],
        e.resourceAttributes = resAttrsOf rl ∧
        e.scopeAttributes = scopeAttrsOf sl.scope ∧
        e.attributes = buildAttrs r.attributes ∧
        (rl.resource = none → e.resourceAttributes = []) ∧
        (rl.resource.bind (fun r2 => r2.attributes) = none → e.resourceAttributes = []) ∧
        (sl.scope = none → e.scopeAttributes = []) ∧
        (r.attributes = none → e.attributes = []) ∧
        (∀ sc, sl.scope = some sc → sc.attributes = none → strTruthy sc.name = false →
          strTruthy sc.version = false → e.scopeAttributes = []) := by
  refine ⟨normalize_length raw es h, ?_⟩
  intro e he
  obtain ⟨rl, hrl, sl, hsl, r, hr, hmk⟩ := normalize_mem raw es e h he
  obtain ⟨t, ht, het, hra, hsa, hat⟩ := mkEntry_inv _ _ r e hmk
  refine ⟨rl, hrl, sl, hsl, r, hr, hra, hsa, hat, ?_, ?_, ?_, ?_, ?_⟩
  · intro hres
    rw [hra, resAttrsOf_none rl hres]
  · intro hres
    rw [hra, resAttrsOf_attrs_none rl hres]
  · intro hsc
    rw [hsa, hsc]
    rfl
  · intro hat2
    rw [hat, hat2]
    rfl
  · intro sc hsc ha hn hv
    rw [hsa, hsc]
    exact scopeAttrsOf_empty sc ha hn hv

/-- Witness for C1 at `w1raw`: the two records flatten to two entries. -/
theorem normalize_count_preservation_witness :
    ((normalize w1raw).getD []).length = countRecords w1raw :=
  (normalize_count_preservation w1raw ((normalize w1raw).getD []) (by decide)).1

/-- Counterexample to C2 as stated: a record without `timeUnixNano` makes
`logRecord.timeUnixNano.toString()` throw a TypeError (modelled by `none`), so
`normalize` raises instead of returning a sequence. -/
theorem normalize_raises_on_absent_time : normalize c2BadRaw = none := by decide

/-- Claim C2 (amended): `normalize` returns a (possibly empty) sequence for
every payload whose records all carry a `timeUnixNano` — absent containers at
any level degrade gracefully — and `normalize {}` returns the empty sequence;
a record with absent `timeUnixNano`, however, raises. -/
theorem normalize_no_raise :
    (∀ raw : IExportLogsServiceRequest, timesPresent raw → (normalize raw).isSome = true) ∧
    normalize {} = some [] := by
  constructor
  · intro raw hraw
    have hall : ∀ o ∈ flattenEntries raw, o.isSome = true := by
      intro o ho
      obtain ⟨rl, hrl, sl, hsl, r, hr, hmk⟩ := (mem_flattenEntries raw o).mp ho
      have hs := hraw rl hrl sl hsl r hr
      cases ht : r.timeUnixNano with
      | none =>
        rw [ht] at hs
        simp at hs
      | some t =>
        rw [← hmk]
        simp [mkEntry, ht]
    have h2 := sequenceOpt_isSome (flattenEntries raw) hall
    rw [normalize]
    cases hs : sequenceOpt (flattenEntries raw) with
    | none =>
      rw [hs] at h2
      simp at h2
    | some fl => simp
  · rfl

/-- Witness for (amended) C2 at `w1raw`. -/
theorem normalize_no_raise_witness : (normalize w1raw).isSome = true :=
  normalize_no_raise.1 w1raw (by unfold timesPresent; decide)

/-- Claim C6: the output of `normalize` is sorted by parsed `timeUnixNano`
descending (each adjacent pair a-then-b has `key b ≤ key a`), the sort is
stable (for every key value, filtering the output gives exactly the filtered
pre-sort flatten sequence in order), an entry with absent or zero time has
sort key 0, and — when all keys are nonnegative — zero-key entries sort
last. -/
theorem normalize_sorted_desc (raw : IExportLogsServiceRequest) (es fl : List LogEntry)
    (hfl : sequenceOpt (flattenEntries raw) = some fl)
    (h : normalize raw = some es) :
    es.Pairwise (fun a b => sortKey b ≤ sortKey a) ∧
    (∀ c : ℚ, es.filter (fun e => sortKey e == c) = fl.filter (fun e => sortKey e == c)) ∧
    (∀ e : LogEntry, e.timeUnixNano = none ∨ e.timeUnixNano = some 0 → sortKey e = 0) ∧
    ((∀ e ∈ es, 0 ≤ sortKey e) →
      es.Pairwise (fun a b => sortKey a = 0 → sortKey b = 0)) := by
  obtain ⟨fl2, h1, h2⟩ := normalize_inv raw es h
  have hfl2 : fl2 = fl := by
    rw [hfl] at h1
    exact (Option.some_inj.mp h1).symm
  have h2b : es = sortDesc fl := by rw [h2, hfl2]
  subst h2b
  refine ⟨sortDesc_pairwise fl, fun c => sortDesc_filter fl c, ?_, ?_⟩
  · intro e hc
    rcases hc with hc | hc <;> simp [sortKey, hc]
  · intro hnn
    refine (sortDesc_pairwise fl).imp_of_mem ?_
    intro a b ha hb hba hka
    exact le_antisymm (hka ▸ hba) (hnn b hb)

/-- Witness for C6 at `w1raw`: the two entries come out in descending order. -/
theorem normalize_sorted_desc_witness :
    ((normalize w1raw).getD []).Pairwise (fun a b => sortKey b ≤ sortKey a) :=
  (normalize_sorted_desc w1raw ((normalize w1raw).getD [])
    ((sequenceOpt (flattenEntries w1raw)).getD []) (by decide) (by decide)).1

/-- Claim C8: `extractAnyValue` picks the first populated variant in the fixed
priority order string, int, double, bool, and yields null when no variant is
populated or the wrapper itself is absent; a union with only `boolValue:
true` extracts to `true`, and a union with no populated field extracts to
null. -/
theorem extractAnyValue_priority :
    extractAnyValue none = .null ∧
    (∀ v : IAnyValue, ∀ s, v.stringValue = some s → extractAnyValue (some v) = .str s) ∧
    (∀ v : IAnyValue, ∀ i, v.stringValue = none → v.intValue = some i →
      extractAnyValue (some v) = .num i) ∧
    (∀ v : IAnyValue, ∀ d, v.stringValue = none → v.intValue = none →
      v.doubleValue = some d → extractAnyValue (some v) = .num d) ∧
    (∀ v : IAnyValue, ∀ b, v.stringValue = none → v.intValue = none →
      v.doubleValue = none → v.boolValue = some b → extractAnyValue (some v) = .bool b) ∧
    (∀ v : IAnyValue, v.stringValue = none → v.intValue = none → v.doubleValue = none →
      v.boolValue = none → extractAnyValue (some v) = .null) ∧
    extractAnyValue (some { boolValue := some true }) = .bool true := by
  refine ⟨rfl, ?_, ?_, ?_, ?_, ?_, rfl⟩
  · intro v s h1
    simp [extractAnyValue, h1]
  · intro v i h1 h2
    simp [extractAnyValue, h1, h2]
  · intro v d h1 h2 h3
    simp [extractAnyValue, h1, h2, h3]
  · intro v b h1 h2 h3 h4
    simp [extractAnyValue, h1, h2, h3, h4]
  · intro v h1 h2 h3 h4
    simp [extractAnyValue, h1, h2, h3, h4]

/-- Witness for C8: the string variant wins over int, double and bool. -/
theorem extractAnyValue_priority_witness :
    extractAnyValue (some
      { stringValue := some "x"
        boolValue := some true
        intValue := some 3
        doubleValue := some 5 }) = .str "x" :=
  extractAnyValue_priority.2.1 _ "x" rfl

/-- Claim C9: when a scope provides a truthy name (resp. version), the scope
attribute map contains `scope.name` (resp. `scope.version`) bound to it —
the synthetic binding wins over any real attribute of the same key since it
is assigned last — and every normalized entry's scope map is exactly the map
of its source scope. -/
theorem scope_synthetic_keys :
    (∀ sc : IInstrumentationScope, strTruthy sc.name = true →
      objGet (scopeAttrsOf (some sc)) "scope.name" = some (.str (sc.name.getD ""))) ∧
    (∀ sc : IInstrumentationScope, strTruthy sc.version = true →
      objGet (scopeAttrsOf (some sc)) "scope.version" = some (.str (sc.version.getD ""))) ∧
    (∀ raw es, normalize raw = some es → ∀ e ∈ es,
      ∃ rl ∈ raw.resourceLogs.getD [], ∃ sl ∈ rl.scopeLogs.getD [],
        e.scopeAttributes = scopeAttrsOf sl.scope) := by
  refine ⟨?_, ?_, ?_⟩
  · intro sc hn
    simp only [scopeAttrsOf, hn, if_true]
    by_cases hv : strTruthy sc.version
    · rw [if_pos hv, objGet_objSet_ne _ _ _ _ (by decide), objGet_objSet_self]
    · rw [if_neg hv, objGet_objSet_self]
  · intro sc hv
    simp only [scopeAttrsOf, hv, if_true]
    rw [objGet_objSet_self]
  · intro raw es h e he
    obtain ⟨rl, hrl, sl, hsl, r, hr, hmk⟩ := normalize_mem raw es e h he
    obtain ⟨t, ht, het, hra, hsa, hat⟩ := mkEntry_inv _ _ r e hmk
    exact ⟨rl, hrl, sl, hsl, hsa⟩

/-- Witness for C9 at `w9sc`: the synthetic `scope.name` shadows the real
attribute of the same name. -/
theorem scope_synthetic_keys_witness :
    objGet (scopeAttrsOf (some w9sc)) "scope.name" = some (.str "svc") :=
  scope_synthetic_keys.1 w9sc (by decide)

/-- Claim C10: every key of the three attribute maps of a normalized entry is
a non-empty string, and a pair whose key is absent or empty is skipped exactly
as if the pair were not present in the input array. -/
theorem attr_keys_nonempty :
    (∀ raw es, normalize raw = some es → ∀ e ∈ es,
      (∀ p ∈ e.attributes, p.1 ≠ "") ∧
      (∀ p ∈ e.resourceAttributes, p.1 ≠ "") ∧
      (∀ p ∈ e.scopeAttributes, p.1 ≠ "")) ∧
    (∀ attrs : List IKeyValue,
      buildAttrs (some attrs) = buildAttrs (some (attrs.filter (fun a => strTruthy a.key)))) := by
  refine ⟨?_, buildAttrs_filter⟩
  intro raw es h e he
  obtain ⟨rl, hrl, sl, hsl, r, hr, hmk⟩ := normalize_mem raw es e h he
  obtain ⟨t, ht, het, hra, hsa, hat⟩ := mkEntry_inv _ _ r e hmk
  refine ⟨?_, ?_, ?_⟩
  · rw [hat]
    exact buildAttrs_keys _
  · rw [hra]
    exact buildAttrs_keys _
  · rw [hsa]
    exact scopeAttrsOf_keys _

/-- Witness for C10 at `w10raw`: the empty-keyed pair never reaches the
resource attribute map of the produced entry. -/
theorem attr_keys_nonempty_witness :
    ("", ExtractedAnyValue.null) ∉ c10entry.resourceAttributes :=
  fun hmem =>
    (attr_keys_nonempty.1 w10raw ((normalize w10raw).getD []) (by decide)
      c10entry (by decide)).2.1 ("", ExtractedAnyValue.null) hmem rfl

/-! ### Claim theorems: histogram builder -/

/-- Two entries sharing the defined non-zero time 5. -/
def c3Degenerate : List LogEntry := [{ timeUnixNano := some 5 }, { timeUnixNano := some 5 }]

/-- Counterexample to C3 as stated: with all entries at the single time 5 the
bucket width is 0, every index computation is NaN in JS and each entry is
skipped, so the bucket counts sum to 0 while 2 entries have a defined,
non-zero time. -/
theorem histogram_total_counterexample :
    ¬ (sumCounts (histogramData c3Degenerate) = countDefNonzero c3Degenerate) := by
  decide

/-- Claim C3 (amended): for a non-degenerate input — nonnegative parsed times,
non-zero min/max anchors, and a non-flat range — the sum of all bucket counts
equals the number of entries with a defined, non-zero `timeUnixNano`; entries
with absent time are skipped, never losing other entries.  In the degenerate
equal-times case every entry is skipped instead (see the counterexample). -/
theorem histogram_total (logs : List LogEntry)
    (hnn : ∀ e ∈ logs, 0 ≤ sortKey e)
    (hmin : minTimeOf logs ≠ 0) (hmax : maxTimeOf logs ≠ 0)
    (hne : minTimeOf logs ≠ maxTimeOf logs) :
    sumCounts (histogramData logs) = countDefNonzero logs := by
  have hnil : logs ≠ [] := by
    rintro rfl
    exact hmin rfl
  have hbr : ¬(minTimeOf logs = 0 ∨ maxTimeOf logs = 0) := by
    rintro (hc | hc)
    · exact hmin hc
    · exact hmax hc
  have hminmax : minTimeOf logs < maxTimeOf logs :=
    lt_of_le_of_ne (minTimeOf_le_maxTimeOf logs hnil) hne
  have hmin0 : 0 ≤ minTimeOf logs := by
    obtain ⟨e0, he0, heq0⟩ := minTimeOf_mem logs hnil
    rw [heq0]
    exact hnn e0 he0
  have hminpos : 0 < minTimeOf logs := lt_of_le_of_ne hmin0 (Ne.symm hmin)
  have hn10 := numBucketsOf_bounds logs
  have hnpos : (0 : ℚ) < (numBucketsOf logs : ℚ) := by
    have : 0 < numBucketsOf logs := by omega
    exact_mod_cast this
  have hbspos : 0 < bucketSizeOf logs := by
    unfold bucketSizeOf
    exact div_pos (sub_pos.mpr hminmax) hnpos
  have hval : ∀ e ∈ logs, ∀ t, e.timeUnixNano = some t →
      ∃ i : ℤ, bucketIndex t (minTimeOf logs) (bucketSizeOf logs) (numBucketsOf logs) = some i ∧
        0 ≤ i ∧ i < (numBucketsOf logs : ℤ) := by
    intro e he t het
    have hkey : sortKey e = t := by simp [sortKey, het]
    have hge : minTimeOf logs ≤ t := hkey ▸ minTimeOf_le logs e he
    refine ⟨min ⌊(t - minTimeOf logs) / bucketSizeOf logs⌋ ((numBucketsOf logs : ℤ) - 1),
      ?_, ?_, ?_⟩
    · rw [bucketIndex, if_neg (ne_of_gt hbspos)]
    · refine le_min ?_ (by omega)
      exact Int.floor_nonneg.mpr (div_nonneg (sub_nonneg.mpr hge) (le_of_lt hbspos))
    · have := min_le_right ⌊(t - minTimeOf logs) / bucketSizeOf logs⌋
        ((numBucketsOf logs : ℤ) - 1)
      omega
  rw [histogramData_eq logs hnil hbr, sumCounts, List.map_map]
  have hcomp : (HistogramBucket.count ∘ fun (i : ℕ) =>
      (⟨minTimeOf logs + (i : ℚ) * bucketSizeOf logs,
        (countBuckets logs (minTimeOf logs) (bucketSizeOf logs) (numBucketsOf logs)).getD i 0⟩
        : HistogramBucket))
      = fun (i : ℕ) =>
        (countBuckets logs (minTimeOf logs) (bucketSizeOf logs) (numBucketsOf logs)).getD i 0 :=
    rfl
  rw [hcomp]
  set cb := countBuckets logs (minTimeOf logs) (bucketSizeOf logs) (numBucketsOf logs) with hcb
  rw [show numBucketsOf logs = cb.length from (countBuckets_length _ _ _ _).symm,
    getD_range_map cb, hcb, countBuckets_sum _ _ _ _ hval]
  rw [countDefNonzero]
  apply List.countP_congr
  intro e he
  cases hte : e.timeUnixNano with
  | none => simp [hte]
  | some t =>
    have hkey : sortKey e = t := by simp [sortKey, hte]
    have htpos : 0 < t := lt_of_lt_of_le hminpos (hkey ▸ minTimeOf_le logs e he)
    simp [hte, ne_of_gt htpos]

/-- Two entries at the distinct non-zero times 1 and 2. -/
def c3Ok : List LogEntry := [{ timeUnixNano := some 1 }, { timeUnixNano := some 2 }]

/-- Witness for (amended) C3 at `c3Ok`. -/
theorem histogram_total_witness :
    sumCounts (histogramData c3Ok) = countDefNonzero c3Ok :=
  histogram_total c3Ok (by decide) (by decide) (by decide) (by decide)

/-- One hundred entries uniformly spread from time 0 to time 10^10 inclusive. -/
def c4Spread : List LogEntry :=
  (List.range 100).map (fun i => { timeUnixNano := some ((i : ℚ) * (10000000000 / 99)) })

set_option maxRecDepth 4000 in
/-- Counterexample to C4 as stated: the uniform spread starting at time 0
parses a min time of exactly 0, so the zero-anchor policy returns the empty
histogram instead of 10 buckets of 10 entries. -/
theorem histogram_scenario_d_counterexample :
    ¬ ((histogramData c4Spread).length = 10 ∧ ∀ b ∈ histogramData c4Spread, b.count = 10) := by
  intro hcl
  have h1 := hcl.1
  have h0 : histogramData c4Spread = [] := by decide
  rw [h0] at h1
  simp at h1

/-- One hundred entries at times i·10^8 for i = 1..100: uniformly spaced over a
10-second span ending at 10^10, avoiding the zero anchor. -/
def c4SpreadOk : List LogEntry :=
  (List.range 100).map (fun i => { timeUnixNano := some (((i : ℚ) + 1) * 100000000) })

set_option maxRecDepth 4000 in
/-- Claim C4 (amended): with the 100 uniform timestamps shifted off the zero
anchor (times i·10^8, i = 1..100, spanning 9.9 seconds), `buildHistogram`
produces exactly `clamp(ceil(9.9/5), 10, 20) = 10` buckets, each counting
exactly 10 entries. -/
theorem histogram_scenario_d :
    (histogramData c4SpreadOk).map HistogramBucket.count = List.replicate 10 10 := by
  decide

/-- One entry at the single non-zero time 1. -/
def c5Single : List LogEntry := [{ timeUnixNano := some 1 }]

/-- Counterexample to C5 as stated: with a single entry at time 1 (so
`maxTime == minTime`), bucket 0 counts 0 entries, not 1: the zero bucket
width makes the JS index NaN, and the guard skips the entry. -/
theorem histogram_bucket_zero_counterexample :
    ¬ (((histogramData c5Single).map HistogramBucket.count).getD 0 0 = c5Single.length) := by
  decide

/-- Claim C5 (amended): when every entry shares one non-zero timestamp
(`maxTime == minTime`), the bucket width is 0, the JS bucket index evaluates
to NaN and fails the `>= 0` guard, so every entry is skipped: the histogram
still has 10 buckets, but all of them — bucket 0 included — have count 0. -/
theorem histogram_equal_times (logs : List LogEntry) (t : ℚ) (hnil : logs ≠ [])
    (hall : ∀ e ∈ logs, e.timeUnixNano = some t) (ht : t ≠ 0) :
    (histogramData logs).length = 10 ∧ ∀ b ∈ histogramData logs, b.count = 0 := by
  have hmin : minTimeOf logs = t := by
    obtain ⟨e, he, heq⟩ := minTimeOf_mem logs hnil
    rw [heq]
    simp [sortKey, hall e he]
  have hmax : maxTimeOf logs = t := by
    obtain ⟨e, he, heq⟩ := maxTimeOf_mem logs hnil
    rw [heq]
    simp [sortKey, hall e he]
  have hbr : ¬(minTimeOf logs = 0 ∨ maxTimeOf logs = 0) := by
    rw [hmin, hmax]
    rintro (hc | hc) <;> exact ht hc
  have hnum : numBucketsOf logs = 10 := by
    rw [numBucketsOf, hmin, hmax, sub_self]
    norm_num
    rfl
  have hbs : bucketSizeOf logs = 0 := by
    rw [bucketSizeOf, hmin, hmax, sub_self, zero_div]
  have hskip : ∀ e ∈ logs, ∀ u, e.timeUnixNano = some u →
      bucketIndex u (minTimeOf logs) (bucketSizeOf logs) (numBucketsOf logs) = none := by
    intro e he u hu
    have hut : u = t := by
      have h2 := hall e he
      rw [hu] at h2
      exact Option.some_inj.mp h2
    subst hut
    rw [bucketIndex, if_pos hbs, hmin]
    simp
  have hcounts : countBuckets logs (minTimeOf logs) (bucketSizeOf logs) (numBucketsOf logs)
      = List.replicate (numBucketsOf logs) 0 := by
    rw [countBuckets, foldl_bucketStep_skip _ _ _ logs hskip]
  rw [histogramData_eq logs hnil hbr]
  constructor
  · simp [hnum]
  · intro b hb
    simp only [List.mem_map, List.mem_range] at hb
    obtain ⟨i, hi, hbeq⟩ := hb
    rw [← hbeq]
    simp [hcounts, getD_replicate_zero]

/-- Two entries sharing the non-zero time 7. -/
def c5Pair : List LogEntry := [{ timeUnixNano := some 7 }, { timeUnixNano := some 7 }]

/-- Witness for (amended) C5 at `c5Pair`. -/
theorem histogram_equal_times_witness : (histogramData c5Pair).length = 10 :=
  (histogram_equal_times c5Pair 7 (by decide) (by decide) (by decide)).1

/-- Claim C7: for every non-degenerate input (non-empty, non-zero time
anchors), the number of buckets equals
`clamp(ceil(rangeSeconds / 5), 10, 20)` with
`rangeSeconds = (maxTime - minTime) / 1e9`, and always lies between 10 and
20. -/
theorem histogram_bucket_count (logs : List LogEntry) (hnil : logs ≠ [])
    (hmin : minTimeOf logs ≠ 0) (hmax : maxTimeOf logs ≠ 0) :
    (histogramData logs).length
        = (min (max 10 ⌈((maxTimeOf logs - minTimeOf logs) / 1000000000) / 5⌉) 20).toNat ∧
    10 ≤ (histogramData logs).length ∧ (histogramData logs).length ≤ 20 := by
  have hbr : ¬(minTimeOf logs = 0 ∨ maxTimeOf logs = 0) := by
    rintro (hc | hc)
    · exact hmin hc
    · exact hmax hc
  have hlen : (histogramData logs).length = numBucketsOf logs := by
    rw [histogramData_eq logs hnil hbr]
    simp
  have hb := numBucketsOf_bounds logs
  refine ⟨?_, ?_, ?_⟩
  · rw [hlen]
    rfl
  · omega
  · omega

/-- Two entries at the distinct non-zero times 1 and 2. -/
def c7Logs : List LogEntry := [{ timeUnixNano := some 1 }, { timeUnixNano := some 2 }]

/-- Witness for C7 at `c7Logs`. -/
theorem histogram_bucket_count_witness : 10 ≤ (histogramData c7Logs).length :=
  (histogram_bucket_count c7Logs (by decide) (by decide) (by decide)).2.1

end Otlp
